import Mathlib

/-!
Verification development for the FullyRustAudio player core (`src/main.rs`):
a shallow embedding of the biquad filter bank (`BiquadFilter`, `Equalizer`),
the seek / equalizer-toggle pipeline rebuild (`seek`), and the control loop
(`run_app`), together with theorems settling the specification claims.

Floating-point (`f32`) arithmetic is modelled over the reals; machine time
(`Duration`) is modelled in whole milliseconds as `Nat`.
-/

/-- The five normalized coefficients and the two-sample history of one
biquad stage (`struct BiquadFilter` in `main.rs`), over the reals. -/
structure Biquad where
  b0 : ℝ
  b1 : ℝ
  b2 : ℝ
  a1 : ℝ
  a2 : ℝ
  x1 : ℝ
  x2 : ℝ
  y1 : ℝ
  y2 : ℝ

/-- Embedding of `BiquadFilter::new(frequency, q, gain, sample_rate)`: RBJ peaking-EQ
coefficients, stored pre-divided by `a0`, with zeroed history. -/
noncomputable def Biquad.new (frequency q gain sampleRate : ℝ) : Biquad :=
  let omega := 2 * Real.pi * frequency / sampleRate
  let alpha := Real.sin omega / (2 * q)
  let a := (10 : ℝ) ^ (gain / 40)
  let b0 := 1 + alpha * a
  let b1 := -2 * Real.cos omega
  let b2 := 1 - alpha * a
  let a0 := 1 + alpha / a
  let a1 := -2 * Real.cos omega
  let a2 := 1 - alpha / a
  { b0 := b0 / a0, b1 := b1 / a0, b2 := b2 / a0, a1 := a1 / a0, a2 := a2 / a0,
    x1 := 0, x2 := 0, y1 := 0, y2 := 0 }

/-- Embedding of `BiquadFilter::process(input)`: the difference equation plus history
shift, in state-passing style (the Rust method mutates `self`). -/
def Biquad.process (f : Biquad) (input : ℝ) : ℝ × Biquad :=
  let output := f.b0 * input + f.b1 * f.x1 + f.b2 * f.x2 - f.a1 * f.y1 - f.a2 * f.y2
  (output, { f with x2 := f.x1, x1 := input, y2 := f.y1, y1 := output })

/-- One pull through the whole cascade: `filters.iter_mut().fold(sample,
|s, filter| filter.process(s))`, returning the final sample and the
updated filter states (band order preserved). -/
def bankStep : List Biquad → ℝ → ℝ × List Biquad
  | [], s => (s, [])
  | f :: rest, s =>
      let p := f.process s
      let q := bankStep rest p.1
      (q.1, p.2 :: q.2)

/-- The full output sequence of the cascade over an input sequence,
threading the filter state from sample to sample. -/
def bankOutputs : List Biquad → List ℝ → List ℝ
  | _, [] => []
  | fs, x :: rest =>
      let p := bankStep fs x
      p.1 :: bankOutputs p.2 rest

/-- The filter states after the cascade has consumed a full input prefix. -/
def bankAfter (fs : List Biquad) (xs : List ℝ) : List Biquad :=
  xs.foldl (fun acc x => (bankStep acc x).2) fs

/-- A filter whose history is still in its freshly-constructed (all-zero)
state. -/
def ZeroHist (f : Biquad) : Prop :=
  f.x1 = 0 ∧ f.x2 = 0 ∧ f.y1 = 0 ∧ f.y2 = 0

lemma new_zeroHist (frequency q gain sampleRate : ℝ) :
    ZeroHist (Biquad.new frequency q gain sampleRate) := by
  refine ⟨rfl, rfl, rfl, rfl⟩

lemma new_b1_eq_a1 (frequency q gain sampleRate : ℝ) :
    (Biquad.new frequency q gain sampleRate).b1 =
      (Biquad.new frequency q gain sampleRate).a1 := rfl

/-- A gain-0 filter has `b0 = 1` (the `1 + α` numerator and denominator
cancel), provided the denominator is nonzero. -/
lemma new_zero_gain_b0 (frequency q sampleRate : ℝ)
    (hq : 1 / 2 < q) :
    (Biquad.new frequency q 0 sampleRate).b0 = 1 := by
  have h2q : (0 : ℝ) < 2 * q := by linarith
  have hsin := Real.neg_one_le_sin (2 * Real.pi * frequency / sampleRate)
  have halpha : -1 < Real.sin (2 * Real.pi * frequency / sampleRate) / (2 * q) := by
    rw [lt_div_iff₀ h2q]
    nlinarith
  have hne : 1 + Real.sin (2 * Real.pi * frequency / sampleRate) / (2 * q) ≠ 0 := by
    linarith
  simp only [Biquad.new, zero_div, Real.rpow_zero, mul_one, div_one]
  exact div_self hne

lemma new_zero_gain_b2_eq_a2 (frequency q sampleRate : ℝ) :
    (Biquad.new frequency q 0 sampleRate).b2 =
      (Biquad.new frequency q 0 sampleRate).a2 := by
  simp only [Biquad.new, zero_div, Real.rpow_zero, mul_one, div_one]

/-- Core induction for the all-pass case: if `b0 = 1`, `b1 = a1`, `b2 = a2`
and the input history mirrors the output history, the filter reproduces its
input sequence exactly. -/
lemma allpass_outputs : ∀ (xs : List ℝ) (f : Biquad),
    f.b0 = 1 → f.b1 = f.a1 → f.b2 = f.a2 → f.x1 = f.y1 → f.x2 = f.y2 →
    bankOutputs [f] xs = xs := by
  intro xs
  induction xs with
  | nil => intro f _ _ _ _ _; rfl
  | cons x rest ih =>
      intro f h0 h1 h2 hx1 hx2
      have hout : (f.process x).1 = x := by
        simp only [Biquad.process]
        rw [h0, h1, h2, hx1, hx2]
        ring
      have hstep : bankStep [f] x = ((f.process x).1, [(f.process x).2]) := rfl
      simp only [bankOutputs, hstep, hout]
      refine congrArg (x :: ·) ?_
      refine ih (f.process x).2 h0 h1 h2 ?_ ?_
      · show x = (f.process x).1
        exact hout.symm
      · exact hx1

/-- C3. For a `BiquadFilter` constructed with `gainDb = 0` (any center
frequency and sample rate, any `Q > 1/2` — which covers the engine's fixed
`Q = 1.41` and keeps the `a0` denominator nonzero), processing any input
sequence from the zero-initialized history reproduces the input sequence
exactly (in the real-arithmetic model of `f32`). -/
theorem zero_gain_identity (frequency sampleRate q : ℝ) (xs : List ℝ)
    (hq : 1 / 2 < q) :
    bankOutputs [Biquad.new frequency q 0 sampleRate] xs = xs := by
  refine allpass_outputs xs _ (new_zero_gain_b0 frequency q sampleRate hq)
    (new_b1_eq_a1 frequency q 0 sampleRate)
    (new_zero_gain_b2_eq_a2 frequency q sampleRate) ?_ ?_
  · rfl
  · rfl

/-- Witness for `zero_gain_identity` at the engine's `Q = 1.41`, 44.1 kHz,
band 32 Hz, on the input sequence `[1, 2]`. -/
theorem zero_gain_identity_witness :
    (1 : ℝ) / 2 < 1.41 ∧
      bankOutputs [Biquad.new 32 1.41 0 44100] [1, 2] = [1, 2] :=
  ⟨by norm_num, zero_gain_identity 32 44100 1.41 [1, 2] (by norm_num)⟩

/-- The decoded sample source consumed by the player: its sample sequence
plus its sample rate (rodio's `Source` trait surface that the equalizer
actually reads; `f32` samples over the reals). -/
structure SourceS where
  samples : List ℝ
  sampleRate : ℝ

/-- Embedding of `struct Equalizer` from `main.rs`: an upstream source plus the ordered
cascade of biquad stages. -/
structure Equalizer where
  source : List ℝ
  filters : List Biquad

/-- The ten fixed band center frequencies from `Equalizer::new`. -/
noncomputable def frequencies : List ℝ :=
  [32, 64, 125, 250, 500, 1000, 2000, 4000, 8000, 16000]

/-- The static gain vector `db_gains` used at startup and on every seek
(`[4.6, 8.0, 4.6, 0.9, 0.0, 3.0, 0.9, 0.0, 0.0, 0.0]`, written with plain
numerals). -/
noncomputable def dbGains : List ℝ :=
  [4.6, 8, 4.6, 0.9, 0, 3, 0.9, 0, 0, 0]

/-- Embedding of `Equalizer::new(source, gains)`: zips the fixed frequencies with the
supplied gains (truncating at the shorter list, as `Iterator::zip` does)
and builds one `BiquadFilter` per pair with `Q = 1.41` at the source's
sample rate. -/
noncomputable def Equalizer.new (source : SourceS) (gains : List ℝ) : Equalizer :=
  { source := source.samples,
    filters := List.zipWith
      (fun freq gain => Biquad.new freq 1.41 gain source.sampleRate)
      frequencies gains }

/-- Embedding of `<Equalizer as Iterator>::next`: pull one upstream sample, fold it
through every filter in band order, yield the result (state-passing
rendering of the mutation of `self`). -/
def Equalizer.next (e : Equalizer) : Option (ℝ × Equalizer) :=
  match e.source with
  | [] => none
  | x :: rest =>
      let p := bankStep e.filters x
      some (p.1, { source := rest, filters := p.2 })

/-- The whole output sequence an `Equalizer` yields before exhaustion. -/
def Equalizer.outputs (e : Equalizer) : List ℝ :=
  bankOutputs e.filters e.source

lemma bankOutputs_length : ∀ (fs : List Biquad) (xs : List ℝ),
    (bankOutputs fs xs).length = xs.length := by
  intro fs xs
  induction xs generalizing fs with
  | nil => rfl
  | cons x rest ih => simpa [bankOutputs] using ih _

/-- Cascade compositionality: filtering through `f :: fs` is filtering
through `f` alone and feeding that output sequence into `fs`. -/
lemma bankOutputs_cons : ∀ (xs : List ℝ) (f : Biquad) (fs : List Biquad),
    bankOutputs (f :: fs) xs = bankOutputs fs (bankOutputs [f] xs) := by
  intro xs
  induction xs with
  | nil => intro f fs; rfl
  | cons x rest ih =>
      intro f fs
      have h1 : bankStep (f :: fs) x =
          ((bankStep fs (f.process x).1).1,
            (f.process x).2 :: (bankStep fs (f.process x).1).2) := rfl
      have h2 : bankStep [f] x = ((f.process x).1, [(f.process x).2]) := rfl
      simp only [bankOutputs, h1, h2]
      exact congrArg _ (ih (f.process x).2 (bankStep fs (f.process x).1).2)

/-- C8. The filter bank is a transparent, sample-synchronous adapter:
`next()` yields `none` exactly when the upstream is exhausted, the output
sequence has exactly the upstream's length, and the cascade processes each
sample through the stages sequentially in band order (stage `k`'s output
sequence is stage `k+1`'s input sequence). -/
theorem equalizer_next_cascade (e : Equalizer) (fs : List Biquad)
    (xs : List ℝ) (f : Biquad) :
    (Equalizer.next e = none ↔ e.source = []) ∧
      (bankOutputs fs xs).length = xs.length ∧
      bankOutputs (f :: fs) xs = bankOutputs fs (bankOutputs [f] xs) ∧
      e.outputs.length = e.source.length := by
  refine ⟨?_, bankOutputs_length fs xs, bankOutputs_cons xs f fs,
    bankOutputs_length e.filters e.source⟩
  cases h : e.source with
  | nil => simp [Equalizer.next, h]
  | cons x rest => simp [Equalizer.next, h]

lemma zipWith_take_left (h : α → β → γ) :
    ∀ (l1 : List α) (l2 : List β),
      List.zipWith h l1 (l2.take l1.length) = List.zipWith h l1 l2 := by
  intro l1
  induction l1 with
  | nil => intro l2; rfl
  | cons a t ih =>
      intro l2
      cases l2 with
      | nil => rfl
      | cons b t2 => simpa [List.zipWith] using ih t2

/-- C10. `Equalizer::new` builds exactly `min(10, |gains|)` stages; a short
gain vector silently drops the highest bands, entries beyond the tenth are
silently ignored, and stage `i` pairs the `i`-th fixed center frequency
with `gains[i]` at `Q = 1.41` — with no validation anywhere. -/
theorem equalizer_new_min_bands (source : SourceS) (gains : List ℝ) :
    (Equalizer.new source gains).filters.length = min 10 gains.length ∧
      Equalizer.new source (gains.take 10) = Equalizer.new source gains ∧
      ∀ (i : ℕ) (fr g : ℝ), frequencies[i]? = some fr → gains[i]? = some g →
        (Equalizer.new source gains).filters[i]? =
          some (Biquad.new fr 1.41 g source.sampleRate) := by
  refine ⟨?_, ?_, ?_⟩
  · simp [Equalizer.new, List.length_zipWith, frequencies]
  · have h10 : frequencies.length = 10 := by simp [frequencies]
    simp only [Equalizer.new]
    rw [← h10, zipWith_take_left]
  · intro i fr g hf hg
    exact (List.getElem?_zipWith_eq_some).2 ⟨fr, g, hf, hg, rfl⟩

/-- Witness for `equalizer_new_min_bands` at band 0 of the static gain
vector. -/
theorem equalizer_new_min_bands_witness :
    frequencies[0]? = some (32 : ℝ) ∧ dbGains[0]? = some (4.6 : ℝ) ∧
      (Equalizer.new ⟨[], 44100⟩ dbGains).filters[0]? =
        some (Biquad.new 32 1.41 4.6 44100) :=
  ⟨rfl, rfl,
    (equalizer_new_min_bands ⟨[], 44100⟩ dbGains).2.2 0 32 4.6 rfl rfl⟩

/-- The tagged shape of the sample source handed to the sink on a pipeline
rebuild: either the re-opened decoder alone or the decoder wrapped in an
`Equalizer`, in both cases fast-forwarded past `skip` milliseconds. -/
inductive SrcTag where
  | raw (skip : ℕ)
  | equalized (skip : ℕ)
deriving DecidableEq

/-- The sink operations `seek` issues, in call order. -/
inductive SinkOp where
  | stop
  | clear
  | append (t : SrcTag)
  | play
deriving DecidableEq

/-- Modelled from the spec: the output sink is an external collaborator
(spec section 6) whose implementation is not under `src/`; per its
documented semantics `stop` empties the queue, `clear` empties the queue
and pauses, `append` enqueues a source, and `play` resumes. The sink state
is its queue of sources plus its paused flag. -/
def applyOp : SinkOp → List SrcTag × Bool → List SrcTag × Bool
  | SinkOp.stop, (_, p) => ([], p)
  | SinkOp.clear, _ => ([], true)
  | SinkOp.append t, (q, p) => (q ++ [t], p)
  | SinkOp.play, (q, _) => (q, false)

/-- The shared player state of `struct AudioPlayer` plus the sink it owns
and an ambient wall clock: sink queue and paused flag, `progress` and
`duration` in milliseconds, the `eq_enabled` flag, and `now`, the
wall-clock instant in milliseconds (no field of the Rust program — the
code keeps no timestamp — but needed to state the clock claims). -/
structure AppState where
  queue : List SrcTag
  paused : Bool
  progress : ℕ
  duration : ℕ
  eqEnabled : Bool
  now : ℕ
deriving DecidableEq

/-- Embedding of `fn seek(audio_player, position, toggle_eq)`: capture
`was_playing`; call `sink.stop()` only when `toggle_eq` is false; flip the
flag when `toggle_eq` is true; build the new source from the flag;
`sink.clear()`; append the skipped (and possibly equalized) source; store
`position` into `progress` unchanged; `sink.play()` iff it was playing.
Returns the new state and the sink-call trace. -/
def appSeek (s : AppState) (position : ℕ) (toggleEq : Bool) :
    AppState × List SinkOp :=
  let wasPlaying := !s.paused
  let eqNew := if toggleEq then !s.eqEnabled else s.eqEnabled
  let src := if eqNew then SrcTag.equalized position else SrcTag.raw position
  let ops := (if toggleEq then [] else [SinkOp.stop]) ++
    [SinkOp.clear, SinkOp.append src] ++
    (if wasPlaying then [SinkOp.play] else [])
  let sink := ops.foldl (fun acc op => applyOp op acc) (s.queue, s.paused)
  ({ s with
      queue := sink.1
      paused := sink.2
      progress := position
      eqEnabled := eqNew }, ops)

/-- A playing demo state used by concrete counterexamples. -/
def demoPlaying : AppState :=
  { queue := [SrcTag.equalized 0], paused := false, progress := 0,
    duration := 100000, eqEnabled := true, now := 0 }

/-- A paused demo state used by concrete witnesses. -/
def demoPaused : AppState :=
  { queue := [SrcTag.raw 0], paused := true, progress := 50,
    duration := 1000, eqEnabled := false, now := 0 }

/-- C2 counterexample: `seek` itself never clamps. From a playing state
with a 100-second track, seeking to 200 seconds stores position 200000 ms,
not the clamped 100000 ms the claim requires. -/
theorem seek_clamp_counterexample :
    (appSeek demoPlaying 200000 false).1.progress ≠
      min 200000 demoPlaying.duration := by decide

/-- C2 amended: `seek(target)` stores `target` into the reported position
unchanged; since every control-loop caller pre-clamps its target into
`[0, trackDuration]`, for all such targets the stored position equals
`clamp(target, 0, trackDuration)`; and (unconditionally) the sink is
playing after the seek iff it was playing immediately before the call. -/
theorem seek_sets_position_inrange (s : AppState) (target : ℕ)
    (toggleEq : Bool) (h : target ≤ s.duration) :
    (appSeek s target toggleEq).1.progress = min target s.duration ∧
      ((appSeek s target toggleEq).1.paused = false ↔ s.paused = false) := by
  constructor
  · have hp : (appSeek s target toggleEq).1.progress = target := rfl
    rw [hp, min_eq_left h]
  · cases ht : toggleEq <;> cases hp : s.paused <;>
      simp [appSeek, applyOp, hp, ht]

/-- Witness for `seek_sets_position_inrange`: a 500 ms seek on the paused
demo state. -/
theorem seek_sets_position_inrange_witness :
    (500 : ℕ) ≤ demoPaused.duration ∧
      (appSeek demoPaused 500 true).1.progress = min 500 demoPaused.duration ∧
      ((appSeek demoPaused 500 true).1.paused = false ↔
        demoPaused.paused = false) := by
  have hle : (500 : ℕ) ≤ demoPaused.duration := by decide
  have h := seek_sets_position_inrange demoPaused 500 true hle
  exact ⟨hle, h.1, h.2⟩

/-- C5 counterexample: the equalizer toggle does not perform the same
sink-call sequence as `seek(currentPosition)` — the toggle path skips the
initial `sink.stop()` (and appends a source built from the flipped flag),
so the traces differ at the very first call. -/
theorem toggle_trace_counterexample :
    (appSeek demoPlaying demoPlaying.progress true).2 ≠
      (appSeek demoPlaying demoPlaying.progress false).2 := by decide

/-- C5 amended: `toggleEqualizer()` flips the flag and then performs the
same rebuild-and-reposition sequence as a `seek(currentPosition)` executed
under the flipped flag, except that it omits the initial `sink.stop()`
call; because the subsequent `sink.clear()` empties the queue anyway, the
resulting player state is identical, and the playing/paused state is left
unchanged. -/
theorem toggle_eq_seek_without_stop (s : AppState) (position : ℕ) :
    (appSeek s position true).1 =
        (appSeek { s with eqEnabled := !s.eqEnabled } position false).1 ∧
      SinkOp.stop :: (appSeek s position true).2 =
        (appSeek { s with eqEnabled := !s.eqEnabled } position false).2 ∧
      (appSeek s position true).1.paused = s.paused := by
  refine ⟨?_, ?_, ?_⟩ <;>
    cases hp : s.paused <;> cases he : s.eqEnabled <;>
      simp [appSeek, applyOp, hp, he]

/-- C6. Immediately after any seek or equalizer toggle, the source the
sink holds is an `Equalizer`-wrapped one iff the `eq_enabled` flag is set
(both are decided by the same post-flip flag read). -/
theorem sink_source_flag_consistent (s : AppState) (position : ℕ)
    (toggleEq : Bool) :
    (match (appSeek s position toggleEq).1.queue with
      | SrcTag.equalized _ :: _ => true
      | _ => false) = (appSeek s position toggleEq).1.eqEnabled := by
  cases ht : toggleEq <;> cases hp : s.paused <;> cases he : s.eqEnabled <;>
    simp [appSeek, applyOp, ht, hp, he]

/-- Embedding of the fallible prologue of `seek`: `File::open` and
`Decoder::new` are called with `.expect(...)`, so a failure of either is a
panic — a hard error with no recovery path — and only when both succeed
does the rebuild proceed. -/
def seekChecked (fileOpen : Option Unit) (decoded : Option SourceS)
    (s : AppState) (position : ℕ) (toggleEq : Bool) :
    Except String (AppState × List SinkOp) :=
  match fileOpen with
  | none => Except.error "Failed to open file"
  | some _ =>
      match decoded with
      | none => Except.error "Failed to create decoder"
      | some _ => Except.ok (appSeek s position toggleEq)

/-- C9. If re-opening or re-decoding the source fails during a seek, the
operation is fatal: it surfaces the hard error from the corresponding
`.expect` and never yields a continuation state (no recovery, retry, or
silent continuation with the old source); the rebuild proceeds only when
both steps succeed. -/
theorem seek_open_failure_fatal (s : AppState) (position : ℕ)
    (toggleEq : Bool) (decoded : Option SourceS) (d : SourceS) :
    seekChecked none decoded s position toggleEq =
        Except.error "Failed to open file" ∧
      seekChecked (some ()) none s position toggleEq =
        Except.error "Failed to create decoder" ∧
      (∀ t, seekChecked none decoded s position toggleEq ≠ Except.ok t) ∧
      (∀ t, seekChecked (some ()) none s position toggleEq ≠ Except.ok t) ∧
      seekChecked (some ()) (some d) s position toggleEq =
        Except.ok (appSeek s position toggleEq) := by
  refine ⟨rfl, rfl, ?_, ?_, rfl⟩ <;> intro t h <;> cases h

/-- The keyboard commands the control loop reacts to (quit excluded: it
just leaves the loop). -/
inductive Key where
  | space
  | left
  | right
  | toggleE
deriving DecidableEq

/-- Embedding of the event-handling `match` in `run_app`: space toggles
the sink's paused flag; the left arrow seeks to `progress` minus 5 s with
saturating subtraction; the right arrow seeks to `progress` plus 5 s
capped at the track duration; the `e` key performs the toggle-flavoured
seek at the current position. -/
def handleEvent : Option Key → AppState → AppState
  | none, s => s
  | some Key.space, s => { s with paused := !s.paused }
  | some Key.toggleE, s => (appSeek s s.progress true).1
  | some Key.left, s => (appSeek s (s.progress - 5000) false).1
  | some Key.right, s => (appSeek s (min (s.progress + 5000) s.duration) false).1

/-- Embedding of the per-iteration progress block in `run_app`: when the
sink is not paused, add a fixed 10 ms to `progress` and clamp it to the
track duration; when paused, leave everything untouched. -/
def tick (s : AppState) : AppState :=
  if s.paused then s else { s with progress := min (s.progress + 10) s.duration }

/-- One iteration of the `run_app` loop: handle the polled event (if any),
run the progress block, and let the ambient wall clock advance by
`elapsed` milliseconds (the real time the iteration took: at least the
10 ms poll timeout plus the 10 ms sleep, but the code never reads it). -/
def loopStep (ev : Option Key) (elapsed : ℕ) (s : AppState) : AppState :=
  let s1 := handleEvent ev s
  let s2 := tick s1
  { s2 with now := s2.now + elapsed }

/-- A whole run of the control loop over a schedule of (event, elapsed)
iterations. -/
def runLoop : List (Option Key × ℕ) → AppState → AppState
  | [], s => s
  | e :: rest, s => runLoop rest (loopStep e.1 e.2 s)

/-- C1 counterexample: in a playing state, an iteration that takes 25 ms
of wall-clock time advances the position by the fixed 10 ms tick, not by
the elapsed 25 ms the claim requires. -/
theorem clock_fixed_tick_counterexample :
    ¬ ((loopStep none 25 demoPlaying).progress =
        demoPlaying.progress + 25) := by decide

/-- C1 amended: while the sink is not paused, each control-loop iteration
adds a fixed 10 ms to the accumulated position (clamped to the track
duration), regardless of the wall-clock time the iteration actually took;
while paused the position is untouched. The code keeps no sampling
instant, so the reported position counts ticks, not real elapsed time. -/
theorem clock_fixed_tick_update (s : AppState) (elapsed : ℕ) :
    (loopStep none elapsed s).progress =
        (if s.paused then s.progress else min (s.progress + 10) s.duration) ∧
      (loopStep none elapsed s).now = s.now + elapsed := by
  cases hp : s.paused <;> simp [loopStep, handleEvent, tick, hp]

lemma appSeek_progress (s : AppState) (position : ℕ) (toggleEq : Bool) :
    (appSeek s position toggleEq).1.progress = position := rfl

lemma appSeek_duration (s : AppState) (position : ℕ) (toggleEq : Bool) :
    (appSeek s position toggleEq).1.duration = s.duration := rfl

lemma handleEvent_duration (ev : Option Key) (s : AppState) :
    (handleEvent ev s).duration = s.duration := by
  cases ev with
  | none => rfl
  | some k => cases k <;> rfl

lemma handleEvent_progress_le (ev : Option Key) (s : AppState)
    (h : s.progress ≤ s.duration) :
    (handleEvent ev s).progress ≤ s.duration := by
  cases ev with
  | none => exact h
  | some k =>
      cases k with
      | space => exact h
      | toggleE => simpa [handleEvent, appSeek_progress] using h
      | left =>
          simp only [handleEvent, appSeek_progress]
          omega
      | right =>
          simp only [handleEvent, appSeek_progress]
          exact min_le_right _ _

lemma tick_progress_le (s : AppState) (h : s.progress ≤ s.duration) :
    (tick s).progress ≤ s.duration := by
  unfold tick
  by_cases hp : s.paused = true
  · simp [hp, h]
  · simp only [Bool.not_eq_true] at hp
    simp [hp, min_le_right]

lemma tick_duration (s : AppState) : (tick s).duration = s.duration := by
  unfold tick
  by_cases hp : s.paused = true <;> simp [hp]

lemma loopStep_duration (ev : Option Key) (elapsed : ℕ) (s : AppState) :
    (loopStep ev elapsed s).duration = s.duration := by
  show (tick (handleEvent ev s)).duration = s.duration
  rw [tick_duration, handleEvent_duration]

lemma loopStep_progress_le (ev : Option Key) (elapsed : ℕ) (s : AppState)
    (h : s.progress ≤ s.duration) :
    (loopStep ev elapsed s).progress ≤ s.duration := by
  show (tick (handleEvent ev s)).progress ≤ s.duration
  have h1 := handleEvent_progress_le ev s h
  have h2 := tick_progress_le (handleEvent ev s)
    (by rw [handleEvent_duration]; exact h1)
  rwa [handleEvent_duration] at h2

lemma runLoop_progress_le : ∀ (evs : List (Option Key × ℕ)) (s : AppState),
    s.progress ≤ s.duration → (runLoop evs s).progress ≤ s.duration := by
  intro evs
  induction evs with
  | nil => intro s h; exact h
  | cons e rest ih =>
      intro s h
      have hstep := loopStep_progress_le e.1 e.2 s h
      have hd := loopStep_duration e.1 e.2 s
      have := ih (loopStep e.1 e.2 s) (by rw [hd]; exact hstep)
      rwa [hd] at this

lemma paused_loopStep (s : AppState) (elapsed : ℕ) (h : s.paused = true) :
    loopStep none elapsed s = { s with now := s.now + elapsed } := by
  simp [loopStep, handleEvent, tick, h]

lemma paused_runLoop : ∀ (ds : List ℕ) (s : AppState), s.paused = true →
    (runLoop (ds.map fun d => (none, d)) s).progress = s.progress := by
  intro ds
  induction ds with
  | nil => intro s _; rfl
  | cons d rest ih =>
      intro s h
      rw [List.map_cons]
      show (runLoop (rest.map fun d => (none, d))
        (loopStep none d s)).progress = s.progress
      rw [paused_loopStep s d h]
      exact ih { s with now := s.now + d } h

/-- C7. Across the control loop: the position never advances while the
sink is paused (over any number of event-free iterations, whatever
wall-clock time they take), is non-decreasing across a playing event-free
iteration (the tick adds a clamped 10 ms), stays within
`[0, trackDuration]` over every run from an in-range state, and each
seek / toggle event writes the position exactly once, to the clamped
target. -/
theorem loop_position_invariants (s : AppState)
    (h : s.progress ≤ s.duration) (elapsed : ℕ)
    (evs : List (Option Key × ℕ)) (ds : List ℕ) :
    s.progress ≤ (loopStep none elapsed s).progress ∧
      (loopStep none elapsed s).progress =
        (if s.paused then s.progress else min (s.progress + 10) s.duration) ∧
      (s.paused = true →
        (runLoop (ds.map fun d => (none, d)) s).progress = s.progress) ∧
      (runLoop evs s).progress ≤ s.duration ∧
      (handleEvent (some Key.left) s).progress =
        min (s.progress - 5000) s.duration ∧
      (handleEvent (some Key.right) s).progress =
        min (s.progress + 5000) s.duration ∧
      (handleEvent (some Key.toggleE) s).progress = min s.progress s.duration := by
  have hupd := (clock_fixed_tick_update s elapsed).1
  refine ⟨?_, hupd, fun hp => paused_runLoop ds s hp,
    runLoop_progress_le evs s h, ?_, ?_, ?_⟩
  · rw [hupd]
    by_cases hp : s.paused = true
    · simp [hp]
    · simp only [Bool.not_eq_true] at hp
      simp only [hp, if_false]
      exact le_min (by omega) h
  · rw [show (handleEvent (some Key.left) s).progress = s.progress - 5000
      from rfl]
    exact (min_eq_left (le_trans (Nat.sub_le _ _) h)).symm
  · rfl
  · rw [show (handleEvent (some Key.toggleE) s).progress = s.progress
      from rfl]
    exact (min_eq_left h).symm

/-- Witness for `loop_position_invariants` on the paused demo state with a
two-iteration event-free schedule and a one-iteration play schedule. -/
theorem loop_position_invariants_witness :
    demoPaused.progress ≤ demoPaused.duration ∧
      (runLoop ([3, 4].map fun d => (none, d)) demoPaused).progress =
        demoPaused.progress ∧
      (runLoop [(some Key.space, 1)] demoPaused).progress ≤
        demoPaused.duration := by
  have h := loop_position_invariants demoPaused (by decide) 2
    [(some Key.space, 1)] [3, 4]
  exact ⟨by decide, h.2.2.1 rfl, h.2.2.2.1⟩

/-- The pair of cascade outputs produced for a two-sample input, threading
the bank state across the two pulls. -/
def out2pair (fs : List Biquad) (v w : ℝ) : ℝ × ℝ :=
  ((bankStep fs v).1, (bankStep (bankStep fs v).2 w).1)

lemma out2pair_cons (f : Biquad) (fs : List Biquad) (v w : ℝ) :
    out2pair (f :: fs) v w =
      out2pair fs (f.process v).1 ((f.process v).2.process w).1 := rfl

/-- The two outputs a zero-history filter produces on a two-sample input. -/
lemma process_vals (f : Biquad) (hz : ZeroHist f) (v w : ℝ) :
    (f.process v).1 = f.b0 * v ∧
      ((f.process v).2.process w).1 =
        f.b0 * w + f.b1 * v - f.a1 * (f.b0 * v) := by
  obtain ⟨h1, h2, h3, h4⟩ := hz
  constructor
  · simp [Biquad.process, h1, h2, h3, h4]
  · simp [Biquad.process, h1, h2, h3, h4]

/-- The per-stage facts the positivity argument needs: `b1 = a1` always
holds by construction, and the stage is either exactly unity (`b0 = 1`,
the gain-0 bands) or a boosting stage with `1 ≤ b0` and `a1 ≤ 0` (the
positive-gain bands at low center frequencies). -/
def GoodF (f : Biquad) : Prop :=
  f.b1 = f.a1 ∧ (f.b0 = 1 ∨ (1 ≤ f.b0 ∧ f.a1 ≤ 0))

lemma good_two_pos (f : Biquad) (hz : ZeroHist f) (hg : GoodF f)
    (v w : ℝ) (hv : 0 < v) (hw : 0 < w) :
    0 < (f.process v).1 ∧ 0 < ((f.process v).2.process w).1 := by
  obtain ⟨hb1, hcase⟩ := hg
  obtain ⟨e1, e2⟩ := process_vals f hz v w
  rw [e1, e2, hb1]
  rcases hcase with h1 | ⟨h1, h2⟩
  · rw [h1]
    constructor
    · linarith [hv]
    · nlinarith
  · have hav : f.a1 * v ≤ 0 := mul_nonpos_of_nonpos_of_nonneg h2 hv.le
    constructor
    · nlinarith
    · nlinarith [mul_nonneg (by linarith : (0 : ℝ) ≤ f.b0 - 1)
        (by nlinarith : (0 : ℝ) ≤ w - f.a1 * v)]

/-- Positivity propagates through a cascade of good zero-history stages. -/
lemma cascade_two_pos : ∀ (fs : List Biquad),
    (∀ f ∈ fs, ZeroHist f ∧ GoodF f) → ∀ v w : ℝ, 0 < v → 0 < w →
    0 < (out2pair fs v w).1 ∧ 0 < (out2pair fs v w).2 := by
  intro fs
  induction fs with
  | nil => intro _ v w hv hw; exact ⟨hv, hw⟩
  | cons f rest ih =>
      intro hall v w hv hw
      have hf := hall f (List.mem_cons_self f rest)
      have htwo := good_two_pos f hf.1 hf.2 v w hv hw
      rw [out2pair_cons]
      exact ih (fun g hg => hall g (List.mem_cons_of_mem f hg)) _ _
        htwo.1 htwo.2

lemma process_zero (f : Biquad) (hz : ZeroHist f) : f.process 0 = (0, f) := by
  obtain ⟨h1, h2, h3, h4⟩ := hz
  cases f with
  | mk b0 b1 b2 a1 a2 x1 x2 y1 y2 =>
      simp only at h1 h2 h3 h4
      subst h1; subst h2; subst h3; subst h4
      simp [Biquad.process]

lemma bankStep_zero : ∀ (fs : List Biquad), (∀ f ∈ fs, ZeroHist f) →
    bankStep fs 0 = (0, fs) := by
  intro fs
  induction fs with
  | nil => intro _; rfl
  | cons f rest ih =>
      intro hall
      have hf := process_zero f (hall f (List.mem_cons_self f rest))
      have hrest := ih (fun g hg => hall g (List.mem_cons_of_mem f hg))
      simp [bankStep, hf, hrest]

/-- A bank of fresh filters maps the input `[0]` to the output `[0]`. -/
lemma bankOutputs_single_zero (fs : List Biquad)
    (h : ∀ f ∈ fs, ZeroHist f) : bankOutputs fs [0] = [0] := by
  simp [bankOutputs, bankStep_zero fs h]

/-- Dropping a prefix of the cascade's output sequence is the same as
first warming the filter state on that input prefix and then filtering
the remaining inputs: the dropped samples do pass through the filters. -/
lemma bankOutputs_drop : ∀ (xs : List ℝ) (n : ℕ) (fs : List Biquad),
    (bankOutputs fs xs).drop n =
      bankOutputs (bankAfter fs (xs.take n)) (xs.drop n) := by
  intro xs
  induction xs with
  | nil => intro n fs; simp [bankOutputs, bankAfter]
  | cons x rest ih =>
      intro n fs
      cases n with
      | zero => simp [bankAfter]
      | succ m =>
          simp only [bankOutputs, List.drop_succ_cons, List.take_succ_cons]
          rw [show bankAfter fs (x :: rest.take m) =
            bankAfter (bankStep fs x).2 (rest.take m) from rfl]
          exact ih m (bankStep fs x).2

lemma omega_pos_lt_pi (fr sr : ℝ) (h1 : 0 < fr) (h2 : 2 * fr < sr) :
    0 < 2 * Real.pi * fr / sr ∧ 2 * Real.pi * fr / sr < Real.pi := by
  have hsr : 0 < sr := by linarith
  have hpi := Real.pi_pos
  constructor
  · positivity
  · rw [div_lt_iff₀ hsr]
    nlinarith [mul_pos hpi (by linarith : (0 : ℝ) < sr - 2 * fr)]

lemma omega_lt_half_pi (fr sr : ℝ) (h1 : 0 < fr) (h2 : 4 * fr < sr) :
    2 * Real.pi * fr / sr < Real.pi / 2 := by
  have hsr : 0 < sr := by linarith
  have hpi := Real.pi_pos
  rw [div_lt_iff₀ hsr]
  nlinarith [mul_pos hpi (by linarith : (0 : ℝ) < sr - 4 * fr)]

lemma sin_omega_pos (fr sr : ℝ) (h1 : 0 < fr) (h2 : 2 * fr < sr) :
    0 < Real.sin (2 * Real.pi * fr / sr) := by
  obtain ⟨ha, hb⟩ := omega_pos_lt_pi fr sr h1 h2
  exact Real.sin_pos_of_pos_of_lt_pi ha hb

lemma cos_omega_pos (fr sr : ℝ) (h1 : 0 < fr) (h2 : 4 * fr < sr) :
    0 < Real.cos (2 * Real.pi * fr / sr) := by
  have ha := (omega_pos_lt_pi fr sr h1 (by linarith)).1
  have hb := omega_lt_half_pi fr sr h1 h2
  have hpi := Real.pi_pos
  exact Real.cos_pos_of_mem_Ioo ⟨by linarith, hb⟩

/-- A positive-gain stage whose normalized frequency lies below a quarter
of the sample rate boosts: its `b0` exceeds 1 and its `a1` is negative. -/
lemma new_pos_gain_strict (fr q g sr : ℝ) (hq : 0 < q) (hg : 0 < g)
    (hs : 0 < Real.sin (2 * Real.pi * fr / sr))
    (hc : 0 < Real.cos (2 * Real.pi * fr / sr)) :
    1 < (Biquad.new fr q g sr).b0 ∧ (Biquad.new fr q g sr).a1 < 0 := by
  have hA : 1 < (10 : ℝ) ^ (g / 40) := by
    rw [Real.one_lt_rpow_iff_of_pos (by norm_num)]
    exact Or.inl ⟨by norm_num, by positivity⟩
  have hA0 : (0 : ℝ) < (10 : ℝ) ^ (g / 40) :=
    Real.rpow_pos_of_pos (by norm_num) _
  have halpha : 0 < Real.sin (2 * Real.pi * fr / sr) / (2 * q) :=
    div_pos hs (by linarith)
  simp only [Biquad.new]
  set al := Real.sin (2 * Real.pi * fr / sr) / (2 * q) with hal
  set A := (10 : ℝ) ^ (g / 40) with hA2
  have ha0 : 0 < 1 + al / A := by positivity
  constructor
  · rw [one_lt_div ha0]
    have hdiv : al / A < al * A := by
      rw [div_lt_iff₀ hA0]
      nlinarith [mul_pos halpha (by nlinarith : (0 : ℝ) < A * A - 1)]
    linarith
  · exact div_neg_of_neg_of_pos (by linarith) ha0

/-- The two-sample source `[1, 0]` at 44.1 kHz used by the pipeline-order
counterexample. -/
noncomputable def twoSampleSource : SourceS := { samples := [1, 0], sampleRate := 44100 }

lemma band_pos_goodF (fr g : ℝ) (hfr : 0 < fr) (hg : 0 < g)
    (hsr : 4 * fr < 44100) :
    ZeroHist (Biquad.new fr 1.41 g 44100) ∧ GoodF (Biquad.new fr 1.41 g 44100) := by
  have hs := sin_omega_pos fr 44100 hfr (by linarith)
  have hc := cos_omega_pos fr 44100 hfr hsr
  have h := new_pos_gain_strict fr 1.41 g 44100 (by norm_num) hg hs hc
  exact ⟨new_zeroHist fr 1.41 g 44100,
    new_b1_eq_a1 fr 1.41 g 44100, Or.inr ⟨le_of_lt h.1, le_of_lt h.2⟩⟩

lemma band_zero_goodF (fr : ℝ) :
    ZeroHist (Biquad.new fr 1.41 0 44100) ∧ GoodF (Biquad.new fr 1.41 0 44100) :=
  ⟨new_zeroHist fr 1.41 0 44100,
    new_b1_eq_a1 fr 1.41 0 44100,
    Or.inl (new_zero_gain_b0 fr 1.41 44100 (by norm_num))⟩

/-- Every stage the seek pipeline builds from `db_gains` at 44.1 kHz is a
fresh good stage in the sense of `GoodF`. -/
lemma seek_filters_good :
    ∀ f ∈ (Equalizer.new twoSampleSource dbGains).filters,
      ZeroHist f ∧ GoodF f := by
  have hun : (Equalizer.new twoSampleSource dbGains).filters =
      [Biquad.new 32 1.41 4.6 44100, Biquad.new 64 1.41 8 44100,
       Biquad.new 125 1.41 4.6 44100, Biquad.new 250 1.41 0.9 44100,
       Biquad.new 500 1.41 0 44100, Biquad.new 1000 1.41 3 44100,
       Biquad.new 2000 1.41 0.9 44100, Biquad.new 4000 1.41 0 44100,
       Biquad.new 8000 1.41 0 44100, Biquad.new 16000 1.41 0 44100] := rfl
  rw [hun]
  intro f hf
  simp only [List.mem_cons, List.not_mem_nil, or_false] at hf
  rcases hf with rfl | rfl | rfl | rfl | rfl | rfl | rfl | rfl | rfl | rfl
  · exact band_pos_goodF 32 4.6 (by norm_num) (by norm_num) (by norm_num)
  · exact band_pos_goodF 64 8 (by norm_num) (by norm_num) (by norm_num)
  · exact band_pos_goodF 125 4.6 (by norm_num) (by norm_num) (by norm_num)
  · exact band_pos_goodF 250 0.9 (by norm_num) (by norm_num) (by norm_num)
  · exact band_zero_goodF 500
  · exact band_pos_goodF 1000 3 (by norm_num) (by norm_num) (by norm_num)
  · exact band_pos_goodF 2000 0.9 (by norm_num) (by norm_num) (by norm_num)
  · exact band_zero_goodF 4000
  · exact band_zero_goodF 8000
  · exact band_zero_goodF 16000

/-- Embedding of the pipeline construction inside `seek` — the code's
order: re-open the decoded source, wrap it in
`Equalizer::new(decoder, db_gains)` iff the equalizer flag is set, and
only then apply `skip_duration(position)` to the (possibly filtered)
stream, modelled as dropping the first `skipN` samples of its output. -/
noncomputable def seekSourceCode (eqOn : Bool) (decoded : SourceS)
    (skipN : ℕ) : List ℝ :=
  (if eqOn then (Equalizer.new decoded dbGains).outputs
    else decoded.samples).drop skipN

/-- Modelled from the spec: the seek pipeline in the order the spec
describes it — skip the raw decoded samples first and only then wrap the
already-skipped stream in a fresh filter bank, so that skipped samples
never touch a biquad stage. Stated for comparison with
`seekSourceCode`. -/
noncomputable def seekSourceSpecOrder (eqOn : Bool) (decoded : SourceS)
    (skipN : ℕ) : List ℝ :=
  let skipped : SourceS :=
    { samples := decoded.samples.drop skipN, sampleRate := decoded.sampleRate }
  if eqOn then (Equalizer.new skipped dbGains).outputs else skipped.samples

/-- The first stage (32 Hz at gain 4.6 dB) responds to the input pair
`(1, 0)` with two strictly positive outputs: the second one is
`a1 * (1 - b0) > 0` because the stage boosts. -/
lemma head_outputs_pos :
    0 < ((Biquad.new 32 1.41 4.6 44100).process 1).1 ∧
      0 < (((Biquad.new 32 1.41 4.6 44100).process 1).2.process 0).1 := by
  obtain ⟨e1, e2⟩ := process_vals (Biquad.new 32 1.41 4.6 44100)
    (new_zeroHist 32 1.41 4.6 44100) 1 0
  have hb1 := new_b1_eq_a1 32 1.41 4.6 44100
  have hstrict := new_pos_gain_strict 32 1.41 4.6 44100 (by norm_num)
    (by norm_num)
    (sin_omega_pos 32 44100 (by norm_num) (by norm_num))
    (cos_omega_pos 32 44100 (by norm_num) (by norm_num))
  obtain ⟨hb0, ha1⟩ := hstrict
  rw [e1, e2, hb1]
  constructor
  · nlinarith
  · nlinarith [mul_pos (neg_pos.mpr ha1)
      (by linarith : (0 : ℝ) < (Biquad.new 32 1.41 4.6 44100).b0 - 1)]

/-- C4 counterexample: on the two-sample source `[1, 0]` at 44.1 kHz with
the equalizer enabled and one sample skipped, the code's pipeline
(filter, then skip) yields a strictly positive remaining sample, while
the spec's pipeline (skip, then filter) yields `[0]` — so the claimed
construction order is not the code's, and the skipped sample demonstrably
passed through the filters. -/
theorem seek_filter_order_counterexample :
    seekSourceCode true twoSampleSource 1 ≠
      seekSourceSpecOrder true twoSampleSource 1 := by
  have hcode : seekSourceCode true twoSampleSource 1 =
      [(out2pair (Equalizer.new twoSampleSource dbGains).filters 1 0).2] := rfl
  have hzero : ∀ f ∈ (Equalizer.new twoSampleSource dbGains).filters,
      ZeroHist f := fun f hf => (seek_filters_good f hf).1
  have hspec : seekSourceSpecOrder true twoSampleSource 1 = [0] := by
    show bankOutputs (Equalizer.new twoSampleSource dbGains).filters [0] = [0]
    exact bankOutputs_single_zero _ hzero
  have hsplit : (Equalizer.new twoSampleSource dbGains).filters =
      Biquad.new 32 1.41 4.6 44100 ::
        ((Equalizer.new twoSampleSource dbGains).filters).tail := rfl
  have htail : ∀ f ∈ ((Equalizer.new twoSampleSource dbGains).filters).tail,
      ZeroHist f ∧ GoodF f := by
    intro f hf
    exact seek_filters_good f (hsplit ▸ List.mem_cons_of_mem _ hf)
  have hpos : 0 < (out2pair (Equalizer.new twoSampleSource dbGains).filters 1 0).2 := by
    rw [hsplit, out2pair_cons]
    exact (cascade_two_pos _ htail _ _ head_outputs_pos.1 head_outputs_pos.2).2
  rw [hcode, hspec]
  intro h
  rw [List.cons.injEq] at h
  exact ne_of_gt hpos h.1

/-- C4 amended: on every seek the pipeline re-opens the original source,
wraps it (when the equalizer is enabled) in a fresh `FilterBank` with
all-zero history, and then skips the target duration on the wrapped
stream — so the skipped samples are pulled through the biquad cascade and
discarded, leaving the filter history warmed by exactly the skipped
prefix; no filter state from the previous pipeline instance survives,
because the bank is rebuilt from scratch. -/
theorem seek_filters_skipped_samples (decoded : SourceS) (skipN : ℕ)
    (fs : List Biquad) (xs : List ℝ) :
    seekSourceCode true decoded skipN =
        bankOutputs (bankAfter (Equalizer.new decoded dbGains).filters
          (decoded.samples.take skipN)) (decoded.samples.drop skipN) ∧
      seekSourceCode false decoded skipN = decoded.samples.drop skipN ∧
      (bankOutputs fs xs).drop skipN =
        bankOutputs (bankAfter fs (xs.take skipN)) (xs.drop skipN) ∧
      (Equalizer.new decoded dbGains).filters.map
          (fun f => (f.x1, f.x2, f.y1, f.y2)) =
        List.replicate 10 ((0 : ℝ), (0 : ℝ), (0 : ℝ), (0 : ℝ)) := by
  refine ⟨?_, rfl, bankOutputs_drop xs skipN fs, rfl⟩
  show ((Equalizer.new decoded dbGains).outputs).drop skipN = _
  exact bankOutputs_drop decoded.samples skipN _
